import Mathlib

/-!
# Grammar-Correction-Fuzzy: the text annotator of `static/js/main.js`

A shallow embedding of `createInteractiveText` and `escapeHtml`
(`src/static/js/main.js`, lines 242-288) together with the properties of the
annotator that the specification states.

## Modelling conventions

* A JavaScript string is a finite sequence of UTF-16 code units.  It is modelled
  as a list of natural numbers, one per code unit; `js` turns a Lean string
  literal of Basic-Multilingual-Plane characters into that form.
* `String.prototype.indexOf` returns the index of the first occurrence, or `-1`;
  it is modelled with result type `Int`.
* `Array.prototype.sort` is stable (ECMAScript 2019 and later).  For a comparator
  that is consistent, as the one of `createInteractiveText` is, the result is the
  unique stable ascending arrangement; it is modelled by a stable insertion sort
  driven by the same comparator.
* `escapeHtml` goes through the DOM (`div.textContent = text; div.innerHTML`).
  The HTML fragment serialisation of a text node inside a `div` replaces `&`,
  U+00A0, `<` and `>` by `&amp;`, `&nbsp;`, `&lt;` and `&gt;` and copies every
  other code unit, the two quote characters included.
-/

namespace GrammarFuzzy

/-! ## JavaScript strings -/

/-- A JavaScript string: the list of its UTF-16 code units. -/
abbrev JSString := List Nat

/-- The code units of a string literal (characters of the Basic Multilingual Plane). -/
def js (s : String) : JSString := s.toList.map Char.toNat

/-- Whether `needle` occurs in `hay` at index 0. -/
def startsWith : JSString → JSString → Bool
  | _, [] => true
  | [], _ :: _ => false
  | h :: hay, n :: needle => h == n && startsWith hay needle

/-- Left-to-right scan of `String.prototype.indexOf`: `k` is the index of the
head of `hay` in the string being searched. -/
def indexOfFrom (needle : JSString) : JSString → Nat → Int
  | [], k => if startsWith [] needle then (k : Int) else -1
  | c :: hay, k =>
    if startsWith (c :: hay) needle then (k : Int) else indexOfFrom needle hay (k + 1)

/-- The value of `hay.indexOf(needle)`: the index of the first occurrence of
`needle` in `hay`, or `-1` when there is none. -/
def indexOf (hay needle : JSString) : Int := indexOfFrom needle hay 0

/-- The value of `s.substring(0, stop)` for `0 ≤ stop`. -/
def substringTo (s : JSString) (stop : Nat) : JSString := s.take stop

/-- The value of `s.substring(start)` for `0 ≤ start`. -/
def substringFrom (s : JSString) (start : Nat) : JSString := s.drop start

/-! ## `escapeHtml` (main.js, lines 284-288) -/

/-- The serialisation of one code unit of a text node (HTML "escaping a string",
outside attribute mode). -/
def escapeChar (c : Nat) : JSString :=
  if c = 38 then js "&amp;"
  else if c = 60 then js "&lt;"
  else if c = 62 then js "&gt;"
  else if c = 160 then js "&nbsp;"
  else [c]

/-- The function `escapeHtml(text)`: the `innerHTML` of a `div` whose `textContent`
was set to `text`. -/
def escapeHtml (text : JSString) : JSString := text.flatMap escapeChar

/-! ## Error spans -/

/-- An error span as the server sends it: the matched text (field `text`), the
category (field `type`) and the suggestion, all strings. -/
structure ErrorSpan where
  text : JSString
  type : JSString
  suggestion : JSString
deriving DecidableEq

/-! ## `createInteractiveText` (main.js, lines 242-279) -/

/-- The template literal of lines 264-272 as a function of the four interpolated
values, with its line breaks and indentation: `attr` is put in the
`data-error-type` attribute, `content` is the highlighted text, `heading` goes into
`<strong>` and `hint` into the `tooltip-suggestion` element. -/
def fillTemplate (attr content heading hint : JSString) : JSString :=
  js "\n                    <span class=\"error-highlight\" data-error-type=\""
    ++ attr
    ++ js "\">\n                        "
    ++ content
    ++ js "\n                        <span class=\"grammar-tooltip\">\n                            <strong>"
    ++ heading
    ++ js "</strong>\n                            <div class=\"tooltip-suggestion\">"
    ++ hint
    ++ js "</div>\n                        </span>\n                    </span>\n                "

/-- The value of `highlightedError` (lines 264-272) for the span `error`. -/
def highlightedError (error : ErrorSpan) : JSString :=
  fillTemplate error.type (escapeHtml error.text) (escapeHtml error.type)
    (escapeHtml error.suggestion)

/-- The comparator of lines 248-250: `text.indexOf(a.text) - text.indexOf(b.text)`. -/
def compareErrors (text : JSString) (a b : ErrorSpan) : Int :=
  indexOf text a.text - indexOf text b.text

/-- Insertion of `a` in front of the first element that `a` does not follow. -/
def insertSorted {α : Type} (cmp : α → α → Int) (a : α) : List α → List α
  | [] => [a]
  | b :: l => if cmp a b ≤ 0 then a :: b :: l else b :: insertSorted cmp a l

/-- The result of `[...xs].sort(cmp)`: the stable ascending arrangement of `xs`. -/
def jsSort {α : Type} (cmp : α → α → Int) : List α → List α
  | [] => []
  | a :: l => insertSorted cmp a (jsSort cmp l)

/-- The array `sortedErrors` of lines 248-250. -/
def sortedErrors (text : JSString) (errors : List ErrorSpan) : List ErrorSpan :=
  jsSort (compareErrors text) errors

/-- One pass through the loop body, lines 257-274: the new value of `result`. -/
def loopBody (result : JSString) (error : ErrorSpan) : JSString :=
  let errorText := error.text
  let errorIndex := indexOf result errorText
  if errorIndex ≠ -1 then
    let before := substringTo result errorIndex.toNat
    let after := substringFrom result (errorIndex.toNat + errorText.length)
    before ++ highlightedError error ++ after
  else result

/-- The loop of lines 256-275; `n` is `i + 1`, so that `loop sorted n result` runs the
body for `i = n - 1, n - 2, ..., 0`. -/
def loop (sorted : List ErrorSpan) : Nat → JSString → JSString
  | 0, result => result
  | i + 1, result =>
    match sorted[i]? with
    | some error => loop sorted i (loopBody result error)
    | none => loop sorted i result

/-- The function `createInteractiveText(text, errors)`; `none` stands for an
`errors` argument that is `null` or absent.  The comment of line 277 announces a
replacement of line breaks by blanks; the code makes none, line 278 returns `result`
as it is. -/
def createInteractiveText (text : JSString) (errors : Option (List ErrorSpan)) : JSString :=
  match errors with
  | none => escapeHtml text
  | some [] => escapeHtml text
  | some (e :: es) =>
    let sorted := sortedErrors text (e :: es)
    loop sorted sorted.length text

/-! ## Observing the loop -/

/-- The spans `sorted[i]` that `loop sorted n` visits, in the order of the visits. -/
def visited (sorted : List ErrorSpan) : Nat → List ErrorSpan
  | 0 => []
  | i + 1 =>
    match sorted[i]? with
    | some error => error :: visited sorted i
    | none => visited sorted i

/-- The order in which `createInteractiveText` processes the spans of a non-empty
list `errors`. -/
def processingOrder (text : JSString) (errors : List ErrorSpan) : List ErrorSpan :=
  visited (sortedErrors text errors) (sortedErrors text errors).length

/-- The sort key of a span: `text.indexOf(error.text)`. -/
def sortKey (text : JSString) (error : ErrorSpan) : Int := indexOf text error.text

/-- Each span of `order` with the value of `errorIndex` (line 259) at its pass. -/
def foundIndices : JSString → List ErrorSpan → List (ErrorSpan × Int)
  | _, [] => []
  | result, error :: order =>
    (error, indexOf result error.text) :: foundIndices (loopBody result error) order

/-- One replacement made by the loop: the span and the index where its text was found. -/
structure Replacement where
  span : ErrorSpan
  index : Nat
deriving DecidableEq

/-- The replacements made while the loop body runs over `order`, first made first. -/
def replacements : JSString → List ErrorSpan → List Replacement
  | _, [] => []
  | result, error :: order =>
    if indexOf result error.text ≠ -1 then
      ⟨error, (indexOf result error.text).toNat⟩ :: replacements (loopBody result error) order
    else replacements (loopBody result error) order

/-- Whether `needle` occurs in `hay` at index `p`. -/
def occursAt (hay needle : JSString) (p : Nat) : Bool := startsWith (hay.drop p) needle

/-- The replacement `r` carried out on the working text `w`: the `span.text.length`
code units from `index` on give way to the wrapper. -/
def Replacement.apply (r : Replacement) (w : JSString) : JSString :=
  w.take r.index ++ highlightedError r.span ++ w.drop (r.index + r.span.text.length)

/-- The replacement `r` taken back: the wrapper at `index` gives way to the text
of the span. -/
def Replacement.undo (r : Replacement) (w : JSString) : JSString :=
  w.take r.index ++ r.span.text ++ w.drop (r.index + (highlightedError r.span).length)

/-- Whether each replacement of `rs`, carried out in turn from `w` on, replaces an
occurrence of the text of its span in the working text of that moment. -/
def replacesOccurrences : JSString → List Replacement → Bool
  | _, [] => true
  | w, r :: rs => occursAt w r.span.text r.index && replacesOccurrences (r.apply w) rs

/-- The indices at which `needle` occurs in `hay`, ascending; `k` is the index of
the head of `hay`. -/
def occurrencesFrom (needle : JSString) : JSString → Nat → List Nat
  | [], k => if startsWith [] needle then [k] else []
  | c :: hay, k =>
    (if startsWith (c :: hay) needle then [k] else []) ++ occurrencesFrom needle hay (k + 1)

/-- The indices at which `needle` occurs in `hay`. -/
def occurrences (hay needle : JSString) : List Nat := occurrencesFrom needle hay 0

/-! ## Reference definitions taken from the specification -/

/-- The escaping rule in the words of the specification: HTML-entity-escaping of
`&`, `<`, `>`, `"` and the apostrophe. -/
def htmlEntityEscape (text : JSString) : JSString :=
  text.flatMap fun c =>
    if c = 38 then js "&amp;"
    else if c = 60 then js "&lt;"
    else if c = 62 then js "&gt;"
    else if c = 34 then js "&quot;"
    else if c = 39 then js "&#39;"
    else [c]

/-- The wrapper in the words of the specification: every inserted field in
entity-escaped form. -/
def wrapperSpec (s : ErrorSpan) : JSString :=
  fillTemplate (htmlEntityEscape s.type) (htmlEntityEscape s.text) (htmlEntityEscape s.type)
    (htmlEntityEscape s.suggestion)

/-- The text from index `pos` on, with the first occurrence of each span of the
ascending list `spans` replaced by `f span` and everything else copied. -/
def spliceWith (f : ErrorSpan → JSString) (text : JSString) : Nat → List ErrorSpan → JSString
  | pos, [] => text.drop pos
  | pos, s :: spans =>
    (text.take (sortKey text s).toNat).drop pos ++ f s
      ++ spliceWith f text ((sortKey text s).toNat + s.text.length) spans

/-- The first-occurrence intervals of `a` and `b` in `text` do not meet. -/
def DisjointIn (text : JSString) (a b : ErrorSpan) : Prop :=
  sortKey text a + a.text.length ≤ sortKey text b ∨ sortKey text b + b.text.length ≤ sortKey text a

instance decidableDisjointIn (text : JSString) : DecidableRel (DisjointIn text) :=
  fun a b => by
    unfold DisjointIn
    exact inferInstance

/-! ## The function on unvalidated spans

The server response is parsed JSON, so a field of a span may be missing (`undefined`)
or `null`.  The following definitions follow lines 242-279 again for such spans, with
the conversions JavaScript applies: `indexOf` and template interpolation convert their
argument to a string, `textContent` treats `undefined` and `null` as the empty string,
and reading `.length` of `undefined` or `null` throws a `TypeError`. -/

/-- The value of a field of a span. -/
inductive JSValue where
  | undefined
  | null
  | string (s : JSString)
deriving DecidableEq

/-- A span whose fields are not known to be strings. -/
structure RawSpan where
  text : JSValue
  type : JSValue
  suggestion : JSValue
deriving DecidableEq

/-- An exception thrown by the function. -/
inductive JSError where
  | typeError
deriving DecidableEq

/-- The abstract operation `ToString`. -/
def toJSString : JSValue → JSString
  | .undefined => js "undefined"
  | .null => js "null"
  | .string s => s

/-- The function `escapeHtml` on an arbitrary field value. -/
def escapeHtmlValue : JSValue → JSString
  | .string s => escapeHtml s
  | _ => []

/-- The property read `v.length`. -/
def lengthOf : JSValue → Except JSError Nat
  | .string s => .ok s.length
  | _ => .error .typeError

/-- The span with string fields as a raw span. -/
def ErrorSpan.toRaw (e : ErrorSpan) : RawSpan :=
  ⟨.string e.text, .string e.type, .string e.suggestion⟩

/-- The template literal of lines 264-272 for a raw span. -/
def highlightedErrorJS (error : RawSpan) : JSString :=
  fillTemplate (toJSString error.type) (escapeHtmlValue error.text)
    (escapeHtmlValue error.type) (escapeHtmlValue error.suggestion)

/-- The comparator of lines 248-250 for raw spans. -/
def compareErrorsJS (text : JSString) (a b : RawSpan) : Int :=
  indexOf text (toJSString a.text) - indexOf text (toJSString b.text)

/-- One pass through the loop body, lines 257-274, for a raw span. -/
def loopBodyJS (result : JSString) (error : RawSpan) : Except JSError JSString :=
  let errorText := error.text
  let errorIndex := indexOf result (toJSString errorText)
  if errorIndex ≠ -1 then
    let before := substringTo result errorIndex.toNat
    match lengthOf errorText with
    | .error thrown => .error thrown
    | .ok len =>
      let after := substringFrom result (errorIndex.toNat + len)
      .ok (before ++ highlightedErrorJS error ++ after)
  else .ok result

/-- The loop of lines 256-275 for raw spans. -/
def loopJS (sorted : List RawSpan) : Nat → JSString → Except JSError JSString
  | 0, result => .ok result
  | i + 1, result =>
    match sorted[i]? with
    | some error =>
      match loopBodyJS result error with
      | .error thrown => .error thrown
      | .ok result' => loopJS sorted i result'
    | none => loopJS sorted i result

/-- The function `createInteractiveText(text, errors)` for raw spans. -/
def createInteractiveTextJS (text : JSString) (errors : Option (List RawSpan)) :
    Except JSError JSString :=
  match errors with
  | none => .ok (escapeHtml text)
  | some [] => .ok (escapeHtml text)
  | some (e :: es) =>
    let sorted := jsSort (compareErrorsJS text) (e :: es)
    loopJS sorted sorted.length text

/-! ## Sample data -/

/-- The span of the scenario in the specification. -/
def hasSpan : ErrorSpan := ⟨js "has", js "Subject-Verb Agreement", js "have"⟩

/-- A second span of the sample sentence. -/
def appleSpan : ErrorSpan := ⟨js "apple", js "Noun Number", js "an apple"⟩

/-- A span whose text is absent from the sample sentence but present in the markup. -/
def markupSpan : ErrorSpan := ⟨js "span", js "Spelling", js "spam"⟩

/-- A span whose text occurs neither in the sample sentence nor in the markup. -/
def absentSpan : ErrorSpan := ⟨js "zzz", js "Spelling", js "zip"⟩

/-- A span whose text holds `<`: the wrapper holds the text in escaped form only. -/
def tagSpan : ErrorSpan := ⟨js "<x", js "Tag", js "x"⟩

/-! ## Searching: `startsWith`, `occursAt`, `indexOf` -/

theorem startsWith_iff_exists (hay needle : JSString) :
    startsWith hay needle = true ↔ ∃ a, hay = needle ++ a := by
  induction needle generalizing hay with
  | nil => simp [startsWith]
  | cons n needle ih =>
    cases hay with
    | nil => simp [startsWith]
    | cons h hay =>
      simp only [startsWith, Bool.and_eq_true, beq_iff_eq, ih, List.cons_append, List.cons.injEq]
      constructor
      · rintro ⟨rfl, a, rfl⟩
        exact ⟨a, rfl, rfl⟩
      · rintro ⟨a, rfl, rfl⟩
        exact ⟨rfl, a, rfl⟩

theorem startsWith_nil_right (hay : JSString) : startsWith hay [] = true := by
  cases hay <;> rfl

theorem startsWith_length_le {hay needle : JSString} (h : startsWith hay needle = true) :
    needle.length ≤ hay.length := by
  obtain ⟨a, rfl⟩ := (startsWith_iff_exists _ _).1 h
  simp

theorem occursAt_iff (hay needle : JSString) (p : Nat) :
    occursAt hay needle p = true ↔ ∃ a, hay.drop p = needle ++ a :=
  startsWith_iff_exists _ _

theorem occursAt_of_eq (before needle after : JSString) :
    occursAt (before ++ needle ++ after) needle before.length = true := by
  rw [occursAt_iff]
  exact ⟨after, by simp⟩

/-- An occurrence at `p` splits the string around it. -/
theorem eq_of_occursAt {hay needle : JSString} {p : Nat} (h : occursAt hay needle p = true) :
    hay = hay.take p ++ needle ++ hay.drop (p + needle.length) := by
  obtain ⟨a, ha⟩ := (occursAt_iff _ _ _).1 h
  have h2 : hay.drop (p + needle.length) = a := by
    rw [← List.drop_drop, ha]
    simp
  rw [h2, List.append_assoc, ← ha, List.take_append_drop]

theorem occursAt_length_le {hay needle : JSString} {p : Nat} (h : occursAt hay needle p = true)
    (hp : p ≤ hay.length) : p + needle.length ≤ hay.length := by
  have := startsWith_length_le h
  simp at this
  omega

/-- Beyond the end of the string only the empty needle occurs, and it occurs at 0 too. -/
theorem occursAt_zero_of_length_lt {hay needle : JSString} {p : Nat}
    (h : occursAt hay needle p = true) (hp : hay.length < p) : occursAt hay needle 0 = true := by
  have h1 : hay.drop p = [] := List.drop_eq_nil_of_le (by omega)
  unfold occursAt at h
  rw [h1] at h
  cases needle with
  | nil => simp [occursAt, startsWith_nil_right]
  | cons n needle => simp [startsWith] at h

/-- What the scan of `indexOf` returns: either `-1`, and the needle occurs nowhere, or
the least index of an occurrence. -/
theorem indexOfFrom_spec (needle hay : JSString) (k : Nat) :
    (indexOfFrom needle hay k = -1 ∧ ∀ i, i ≤ hay.length → occursAt hay needle i = false) ∨
    (∃ j, j ≤ hay.length ∧ indexOfFrom needle hay k = ((k + j : Nat) : Int) ∧
      occursAt hay needle j = true ∧ ∀ i, i < j → occursAt hay needle i = false) := by
  induction hay generalizing k with
  | nil =>
    by_cases h : startsWith [] needle = true
    · right
      exact ⟨0, le_refl _, by simp [indexOfFrom, h], by simpa [occursAt] using h, by simp⟩
    · left
      refine ⟨by simp [indexOfFrom, h], ?_⟩
      intro i _
      simpa [occursAt] using h
  | cons c hay ih =>
    by_cases h : startsWith (c :: hay) needle = true
    · right
      exact ⟨0, Nat.zero_le _, by simp [indexOfFrom, h], by simpa [occursAt] using h, by simp⟩
    · rcases ih (k + 1) with ⟨h1, h2⟩ | ⟨j, hj, h1, h2, h3⟩
      · left
        refine ⟨by simp [indexOfFrom, h, h1], ?_⟩
        intro i hi
        cases i with
        | zero => simpa [occursAt] using h
        | succ i =>
          have := h2 i (by simpa using hi)
          simpa [occursAt] using this
      · right
        refine ⟨j + 1, by simpa using hj, ?_, by simpa [occursAt] using h2, ?_⟩
        · simp only [indexOfFrom, h, h1]
          simp only [Bool.false_eq_true, if_false]
          push_cast
          ring
        · intro i hi
          cases i with
          | zero => simpa [occursAt] using h
          | succ i =>
            have := h3 i (by omega)
            simpa [occursAt] using this

theorem indexOf_ge (hay needle : JSString) : -1 ≤ indexOf hay needle := by
  rcases indexOfFrom_spec needle hay 0 with ⟨h, _⟩ | ⟨j, _, h, _⟩
  · simp [indexOf, h]
  · rw [indexOf, h]
    omega

/-- Characterisation of a found index. -/
theorem indexOf_eq_iff (hay needle : JSString) (p : Nat) :
    indexOf hay needle = (p : Int) ↔
      occursAt hay needle p = true ∧ ∀ i, i < p → occursAt hay needle i = false := by
  rcases indexOfFrom_spec needle hay 0 with ⟨h, h2⟩ | ⟨j, hj, h, h2, h3⟩
  · constructor
    · intro hp
      rw [indexOf, h] at hp
      omega
    · rintro ⟨hp, hmin⟩
      exfalso
      by_cases hle : p ≤ hay.length
      · simpa [hp] using h2 p hle
      · have h0 := occursAt_zero_of_length_lt hp (by omega)
        simpa [h0] using h2 0 (Nat.zero_le _)
  · constructor
    · intro hp
      rw [indexOf, h] at hp
      have : j = p := by omega
      subst this
      exact ⟨h2, h3⟩
    · rintro ⟨hp, hmin⟩
      rw [indexOf, h]
      have : j = p := by
        rcases Nat.lt_trichotomy j p with hlt | heq | hgt
        · simpa [h2] using hmin j hlt
        · exact heq
        · simpa [hp] using h3 p hgt
      subst this
      simp

/-- Characterisation of "not found". -/
theorem indexOf_eq_neg_one_iff (hay needle : JSString) :
    indexOf hay needle = -1 ↔ ∀ i, occursAt hay needle i = false := by
  rcases indexOfFrom_spec needle hay 0 with ⟨h, h2⟩ | ⟨j, hj, h, h2, h3⟩
  · refine ⟨fun _ i => ?_, fun _ => by rw [indexOf, h]⟩
    by_cases hle : i ≤ hay.length
    · exact h2 i hle
    · by_contra hc
      have h0 := occursAt_zero_of_length_lt (Bool.eq_true_of_not_eq_false hc) (by omega)
      simpa [h0] using h2 0 (Nat.zero_le _)
  · constructor
    · intro hp
      rw [indexOf, h] at hp
      omega
    · intro hall
      simpa [h2] using hall j

/-- A found index is a natural number at which the needle occurs, within the string. -/
theorem indexOf_found {hay needle : JSString} (h : indexOf hay needle ≠ -1) :
    ∃ p : Nat, indexOf hay needle = (p : Int) ∧ occursAt hay needle p = true ∧
      p + needle.length ≤ hay.length ∧ ∀ i, i < p → occursAt hay needle i = false := by
  rcases indexOfFrom_spec needle hay 0 with ⟨h1, _⟩ | ⟨j, hj, h1, h2, h3⟩
  · exact absurd h1 h
  · exact ⟨j, by simpa [indexOf] using h1, h2, occursAt_length_le h2 hj, h3⟩

/-! ## The loop as a fold over the processing order -/

theorem visited_eq_reverse_take (sorted : List ErrorSpan) (n : Nat) (hn : n ≤ sorted.length) :
    visited sorted n = (sorted.take n).reverse := by
  induction n with
  | zero => simp [visited]
  | succ i ih =>
    have hi : i < sorted.length := hn
    rw [visited, List.getElem?_eq_getElem hi]
    show sorted[i] :: visited sorted i = _
    rw [ih (Nat.le_of_lt hi), List.take_succ, List.getElem?_eq_getElem hi, Option.toList,
      List.reverse_append]
    rfl

theorem loop_eq_foldl (sorted : List ErrorSpan) (n : Nat) (result : JSString) :
    loop sorted n result = (visited sorted n).foldl loopBody result := by
  induction n generalizing result with
  | zero => rfl
  | succ i ih =>
    rw [loop, visited]
    cases sorted[i]? with
    | none => exact ih result
    | some error => simpa using ih (loopBody result error)

theorem processingOrder_eq_reverse (text : JSString) (errors : List ErrorSpan) :
    processingOrder text errors = (sortedErrors text errors).reverse := by
  rw [processingOrder, visited_eq_reverse_take _ _ (le_refl _), List.take_length]

/-- With at least one span, the function folds the loop body over the processing order. -/
theorem createInteractiveText_eq_foldl (text : JSString) (errors : List ErrorSpan)
    (hne : errors ≠ []) :
    createInteractiveText text (some errors)
      = (processingOrder text errors).foldl loopBody text := by
  cases errors with
  | nil => exact absurd rfl hne
  | cons e es =>
    show loop _ _ text = _
    rw [loop_eq_foldl]
    rfl

theorem loopBody_of_not_found {result : JSString} {error : ErrorSpan}
    (h : indexOf result error.text = -1) : loopBody result error = result := by
  simp [loopBody, h]

theorem loopBody_of_found {result : JSString} {error : ErrorSpan} {p : Nat}
    (h : indexOf result error.text = (p : Int)) :
    loopBody result error
      = result.take p ++ highlightedError error ++ result.drop (p + error.text.length) := by
  have hne : indexOf result error.text ≠ -1 := by
    rw [h]
    omega
  simp [loopBody, hne, h, substringTo, substringFrom]

theorem foundIndices_append (result : JSString) (l1 l2 : List ErrorSpan) :
    foundIndices result (l1 ++ l2)
      = foundIndices result l1 ++ foundIndices (l1.foldl loopBody result) l2 := by
  induction l1 generalizing result with
  | nil => rfl
  | cons e l1 ih => simp [foundIndices, ih]

/-! ## The sort -/

theorem mem_insertSorted {α : Type} (cmp : α → α → Int) (a x : α) (l : List α) :
    x ∈ insertSorted cmp a l ↔ x = a ∨ x ∈ l := by
  induction l with
  | nil => simp [insertSorted]
  | cons b l ih =>
    rw [insertSorted]
    split
    · simp
    · simp only [List.mem_cons, ih]
      tauto

theorem insertSorted_perm {α : Type} (cmp : α → α → Int) (a : α) (l : List α) :
    (insertSorted cmp a l).Perm (a :: l) := by
  induction l with
  | nil => simp [insertSorted]
  | cons b l ih =>
    rw [insertSorted]
    split
    · exact List.Perm.refl _
    · exact (List.Perm.cons b ih).trans (List.Perm.swap a b l)

theorem jsSort_perm {α : Type} (cmp : α → α → Int) (l : List α) :
    (jsSort cmp l).Perm l := by
  induction l with
  | nil => exact List.Perm.refl _
  | cons a l ih => exact (insertSorted_perm cmp a _).trans (List.Perm.cons a ih)

theorem insertSorted_pairwise {α : Type} (cmp : α → α → Int) (key : α → Int) 
    (hcmp : ∀ a b, cmp a b ≤ 0 ↔ key a ≤ key b) (a : α)
    (l : List α) (hl : l.Pairwise (fun x y => key x ≤ key y)) :
    (insertSorted cmp a l).Pairwise (fun x y => key x ≤ key y) := by
  induction l with
  | nil => simp [insertSorted]
  | cons b l ih =>
    rw [insertSorted]
    have hb := List.pairwise_cons.1 hl
    split
    · rename_i h
      have hab : key a ≤ key b := (hcmp a b).1 h
      refine List.pairwise_cons.2 ⟨?_, hl⟩
      intro x hx
      rcases List.mem_cons.1 hx with rfl | hx
      · exact hab
      · exact le_trans hab (hb.1 x hx)
    · rename_i h
      have hba : key b ≤ key a := by
        have := mt (hcmp a b).2 h
        omega
      refine List.pairwise_cons.2 ⟨?_, ih hb.2⟩
      intro x hx
      rcases (mem_insertSorted cmp a x l).1 hx with rfl | hx
      · exact hba
      · exact hb.1 x hx

/-- The sorted array is ascending in the key. -/
theorem jsSort_pairwise {α : Type} (cmp : α → α → Int) (key : α → Int) 
    (hcmp : ∀ a b, cmp a b ≤ 0 ↔ key a ≤ key b) (l : List α) :
    (jsSort cmp l).Pairwise (fun x y => key x ≤ key y) := by
  induction l with
  | nil => exact List.Pairwise.nil
  | cons a l ih => exact insertSorted_pairwise cmp key hcmp a _ ih

theorem insertSorted_filter {α : Type} (cmp : α → α → Int) (key : α → Int) 
    (hcmp : ∀ a b, cmp a b ≤ 0 ↔ key a ≤ key b) (k : Int) (a : α)
    (l : List α) :
    (insertSorted cmp a l).filter (fun x => decide (key x = k))
      = (a :: l).filter (fun x => decide (key x = k)) := by
  induction l with
  | nil => simp [insertSorted]
  | cons b l ih =>
    rw [insertSorted]
    split
    · rfl
    · rename_i h
      have hba : key b < key a := by
        have := mt (hcmp a b).2 h
        omega
      rw [List.filter_cons, ih]
      by_cases hb : key b = k
      · have ha : key a ≠ k := by omega
        simp [List.filter_cons, hb, ha]
      · simp [List.filter_cons, hb]

/-- The sort is stable: spans with the same key keep their order. -/
theorem jsSort_filter {α : Type} (cmp : α → α → Int) (key : α → Int) 
    (hcmp : ∀ a b, cmp a b ≤ 0 ↔ key a ≤ key b) (k : Int) (l : List α) :
    (jsSort cmp l).filter (fun x => decide (key x = k))
      = l.filter (fun x => decide (key x = k)) := by
  induction l with
  | nil => rfl
  | cons a l ih =>
    rw [jsSort, insertSorted_filter cmp key hcmp, List.filter_cons, List.filter_cons, ih]

theorem insertSorted_of_le {α : Type} (cmp : α → α → Int) (key : α → Int) 
    (hcmp : ∀ a b, cmp a b ≤ 0 ↔ key a ≤ key b) (a : α) (l : List α)
    (h : ∀ y ∈ l, key a ≤ key y) : insertSorted cmp a l = a :: l := by
  cases l with
  | nil => rfl
  | cons b l =>
    have : cmp a b ≤ 0 := (hcmp a b).2 (h b (List.mem_cons_self _ _))
    simp [insertSorted, this]

theorem insertSorted_append_of_lt {α : Type} (cmp : α → α → Int) (key : α → Int) 
    (hcmp : ∀ a b, cmp a b ≤ 0 ↔ key a ≤ key b) (a : α)
    (pre l : List α) (h : ∀ y ∈ pre, key y < key a) :
    insertSorted cmp a (pre ++ l) = pre ++ insertSorted cmp a l := by
  induction pre with
  | nil => rfl
  | cons b pre ih =>
    have hb : ¬ cmp a b ≤ 0 := by
      rw [hcmp]
      have := h b (List.mem_cons_self _ _)
      omega
    rw [List.cons_append, insertSorted, if_neg hb, ih (fun y hy => h y (List.mem_cons_of_mem _ hy))]
    rfl

/-- An element with the least possible key, put anywhere into the input, lands
somewhere in the sorted array and leaves the arrangement of the others alone. -/
theorem jsSort_insert_least {α : Type} (cmp : α → α → Int) (key : α → Int) 
    (hcmp : ∀ a b, cmp a b ≤ 0 ↔ key a ≤ key b) (s : α)
    (hs : ∀ x, key s ≤ key x) (l1 l2 : List α) :
    ∃ A B, jsSort cmp (l1 ++ s :: l2) = A ++ s :: B ∧ jsSort cmp (l1 ++ l2) = A ++ B ∧
      ∀ a ∈ A, key a = key s := by
  induction l1 with
  | nil =>
    refine ⟨[], jsSort cmp l2, ?_, rfl, by simp⟩
    simp only [List.nil_append, jsSort]
    exact insertSorted_of_le cmp key hcmp s _ (fun y _ => hs y)
  | cons x l1 ih =>
    obtain ⟨A, B, h1, h2, h3⟩ := ih
    by_cases hx : key x ≤ key s
    · refine ⟨x :: A, B, ?_, ?_, ?_⟩
      · rw [List.cons_append, jsSort, h1]
        exact insertSorted_of_le cmp key hcmp x _ (fun y _ => le_trans hx (hs y))
      · rw [List.cons_append, jsSort, h2]
        exact insertSorted_of_le cmp key hcmp x _ (fun y _ => le_trans hx (hs y))
      · intro a ha
        rcases List.mem_cons.1 ha with rfl | ha
        · exact le_antisymm hx (hs _)
        · exact h3 a ha
    · have hlt : key s < key x := by omega
      refine ⟨A, insertSorted cmp x B, ?_, ?_, h3⟩
      · rw [List.cons_append, jsSort, h1]
        rw [insertSorted_append_of_lt cmp key hcmp x A _ (fun y hy => by rw [h3 y hy]; exact hlt)]
        have : ¬ cmp x s ≤ 0 := by
          rw [hcmp]
          omega
        simp [insertSorted, this]
      · rw [List.cons_append, jsSort, h2]
        exact insertSorted_append_of_lt cmp key hcmp x A _
          (fun y hy => by rw [h3 y hy]; exact hlt)

theorem compareErrors_le (text : JSString) (a b : ErrorSpan) :
    compareErrors text a b ≤ 0 ↔ sortKey text a ≤ sortKey text b := by
  unfold compareErrors sortKey
  omega

theorem sortedErrors_perm (text : JSString) (errors : List ErrorSpan) :
    (sortedErrors text errors).Perm errors :=
  jsSort_perm _ _

theorem sortedErrors_pairwise (text : JSString) (errors : List ErrorSpan) :
    (sortedErrors text errors).Pairwise (fun a b => sortKey text a ≤ sortKey text b) :=
  jsSort_pairwise _ _ (compareErrors_le text) _

/-! ## `escapeHtml` -/

theorem escapeChar_cases (c : Nat) :
    escapeChar c = [38, 97, 109, 112, 59] ∨ escapeChar c = [38, 108, 116, 59] ∨
    escapeChar c = [38, 103, 116, 59] ∨ escapeChar c = [38, 110, 98, 115, 112, 59] ∨
    (escapeChar c = [c] ∧ c ≠ 38 ∧ c ≠ 60 ∧ c ≠ 62 ∧ c ≠ 160) := by
  unfold escapeChar
  split_ifs with h1 h2 h3 h4
  · exact Or.inl rfl
  · exact Or.inr (Or.inl rfl)
  · exact Or.inr (Or.inr (Or.inl rfl))
  · exact Or.inr (Or.inr (Or.inr (Or.inl rfl)))
  · exact Or.inr (Or.inr (Or.inr (Or.inr ⟨rfl, h1, h2, h3, h4⟩)))

/-- The escaped form of a text holds neither `<` nor `>`. -/
theorem not_mem_escapeHtml (text : JSString) (c : Nat) (hc : c ∈ escapeHtml text) :
    c ≠ 60 ∧ c ≠ 62 := by
  obtain ⟨x, _, hx⟩ := List.mem_flatMap.1 hc
  rcases escapeChar_cases x with h | h | h | h | ⟨h, h1, h2, h3, h4⟩ <;> rw [h] at hx <;>
    simp at hx <;> omega

theorem lt_mem_fillTemplate (attr content heading hint : JSString) :
    60 ∈ fillTemplate attr content heading hint := by
  have h : (60 : Nat) ∈
      js "\n                    <span class=\"error-highlight\" data-error-type=\"" := by
    decide
  simp only [fillTemplate, List.mem_append]
  exact Or.inl (Or.inl (Or.inl (Or.inl (Or.inl (Or.inl (Or.inl (Or.inl h)))))))

theorem mem_of_occursAt {hay needle : JSString} {p : Nat} (h : occursAt hay needle p = true)
    {c : Nat} (hc : c ∈ needle) : c ∈ hay := by
  obtain ⟨a, ha⟩ := (occursAt_iff _ _ _).1 h
  have : c ∈ hay.drop p := by
    rw [ha]
    exact List.mem_append_left _ hc
  exact List.mem_of_mem_drop this

/-! ## Occurrences -/

theorem mem_occurrencesFrom (needle hay : JSString) (k p : Nat) :
    p ∈ occurrencesFrom needle hay k ↔
      ∃ j, p = k + j ∧ j ≤ hay.length ∧ occursAt hay needle j = true := by
  induction hay generalizing k with
  | nil =>
    by_cases h : startsWith [] needle = true
    · simp only [occurrencesFrom, h, if_true, List.mem_singleton, List.length_nil]
      constructor
      · rintro rfl
        exact ⟨0, rfl, le_refl _, by simpa [occursAt] using h⟩
      · rintro ⟨j, rfl, hj, _⟩
        omega
    · simp only [occurrencesFrom, h, List.length_nil]
      constructor
      · intro hp
        simp at hp
      · rintro ⟨j, _, hj, hocc⟩
        have hj0 : j = 0 := by omega
        subst hj0
        exact absurd (by simpa [occursAt] using hocc) h
  | cons c hay ih =>
    simp only [occurrencesFrom, List.mem_append, ih, List.length_cons]
    constructor
    · rintro (hp | ⟨j, rfl, hj, hocc⟩)
      · by_cases h : startsWith (c :: hay) needle = true
        · simp only [h, if_true, List.mem_singleton] at hp
          exact ⟨0, by omega, Nat.zero_le _, by simpa [occursAt] using h⟩
        · simp [h] at hp
      · exact ⟨j + 1, by omega, by omega, by simpa [occursAt] using hocc⟩
    · rintro ⟨j, rfl, hj, hocc⟩
      cases j with
      | zero =>
        left
        have h : startsWith (c :: hay) needle = true := by simpa [occursAt] using hocc
        simp [h]
      | succ j =>
        right
        exact ⟨j, by omega, by omega, by simpa [occursAt] using hocc⟩

theorem mem_occurrences (hay needle : JSString) (p : Nat) :
    p ∈ occurrences hay needle ↔ p ≤ hay.length ∧ occursAt hay needle p = true := by
  rw [occurrences, mem_occurrencesFrom]
  constructor
  · rintro ⟨j, rfl, hj, h⟩
    exact ⟨by omega, by simpa using h⟩
  · rintro ⟨hp, h⟩
    exact ⟨p, by omega, hp, h⟩

/-- When the needle occurs exactly once, `indexOf` finds that occurrence. -/
theorem indexOf_of_occurs_once (before needle after : JSString)
    (hOnce : (occurrences (before ++ needle ++ after) needle).length = 1) :
    indexOf (before ++ needle ++ after) needle = (before.length : Int) := by
  have hocc := occursAt_of_eq before needle after
  have hne : indexOf (before ++ needle ++ after) needle ≠ -1 := by
    intro h
    have := (indexOf_eq_neg_one_iff _ _).1 h before.length
    rw [hocc] at this
    cases this
  obtain ⟨p, hp, hpocc, hlen, _⟩ := indexOf_found hne
  obtain ⟨q, hq⟩ := List.length_eq_one.1 hOnce
  have h1 : p ∈ occurrences (before ++ needle ++ after) needle :=
    (mem_occurrences _ _ _).2 ⟨by omega, hpocc⟩
  have h2 : before.length ∈ occurrences (before ++ needle ++ after) needle :=
    (mem_occurrences _ _ _).2 ⟨by simp, hocc⟩
  rw [hq, List.mem_singleton] at h1 h2
  rw [hp, h1, h2]

theorem processingOrder_singleton (text : JSString) (s : ErrorSpan) :
    processingOrder text [s] = [s] := rfl

/-! ## Claim C1 -/

/-- C1: without spans, that is with `errors` the empty list or `null`/absent, the
result is exactly `escapeHtml text`; the two cases give the same result, and the
result holds no wrapper of any span. -/
theorem createInteractiveText_no_errors (text : JSString) :
    createInteractiveText text (some []) = escapeHtml text ∧
    createInteractiveText text none = escapeHtml text ∧
    createInteractiveText text none = createInteractiveText text (some []) ∧
    ∀ (s : ErrorSpan) (p : Nat),
      occursAt (createInteractiveText text (some [])) (highlightedError s) p = false := by
  refine ⟨rfl, rfl, rfl, ?_⟩
  intro s p
  by_contra h
  have hmem := mem_of_occursAt (Bool.eq_true_of_not_eq_false h) (lt_mem_fillTemplate _ _ _ _)
  exact (not_mem_escapeHtml text 60 hmem).1 rfl

/-! ## Claim C2: a single span -/

/-- The first of two decompositions of a string around the code unit `c` with no `c`
before it has the shorter front. -/
theorem length_le_of_first (c : Nat) (A B A' B' : JSString)
    (h : A ++ c :: B = A' ++ c :: B') (hA : c ∉ A) : A.length ≤ A'.length := by
  induction A generalizing A' with
  | nil => simp
  | cons a A ih =>
    cases A' with
    | nil =>
      exfalso
      have hac : a = c := by
        have := congrArg List.head? h
        simpa using this
      exact hA (hac ▸ List.mem_cons_self _ _)
    | cons a' A' =>
      have htail : A ++ c :: B = A' ++ c :: B' := by
        have := congrArg List.tail h
        simpa using this
      have := ih A' htail (fun hc => hA (List.mem_cons_of_mem _ hc))
      simpa using this

theorem length_le_of_last (c : Nat) (A B A' B' : JSString)
    (h : A ++ c :: B = A' ++ c :: B') (hB : c ∉ B) : B.length ≤ B'.length := by
  have hrev : B.reverse ++ c :: A.reverse = B'.reverse ++ c :: A'.reverse := by
    have := congrArg List.reverse h
    simpa using this
  have := length_le_of_first c B.reverse A.reverse B'.reverse A'.reverse hrev
    (fun hc => hB (List.mem_reverse.1 hc))
  simpa using this

/-- The wrapper begins with a line break, twenty blanks and `<`. -/
theorem fillTemplate_first_lt (attr content heading hint : JSString) :
    ∃ R, fillTemplate attr content heading hint = js "\n                    " ++ 60 :: R := by
  have h : js "\n                    <span class=\"error-highlight\" data-error-type=\""
      = js "\n                    " ++ 60 :: js "span class=\"error-highlight\" data-error-type=\"" := by
    decide
  rw [fillTemplate, h]
  simp only [List.append_assoc, List.cons_append]
  exact ⟨_, rfl⟩

/-- The wrapper ends with `</span>`, a line break and sixteen blanks. -/
theorem fillTemplate_last_lt (attr content heading hint : JSString) :
    ∃ R, fillTemplate attr content heading hint = R ++ 60 :: js "/span>\n                " := by
  have h : js "</div>\n                        </span>\n                    </span>\n                "
      = js "</div>\n                        </span>\n                    " ++ 60 :: js "/span>\n                " := by
    decide
  rw [fillTemplate, h]
  exact ⟨_, (List.append_assoc _ _ _).symm⟩

/-- Between two stretches of text without `<` the wrapper occurs once, where it was
put. -/
theorem occursAt_wrapper_iff (before after : JSString) (s : ErrorSpan)
    (hb : 60 ∉ before) (ha : 60 ∉ after) (q : Nat) :
    occursAt (before ++ highlightedError s ++ after) (highlightedError s) q = true
      ↔ q = before.length := by
  constructor
  · intro h
    obtain ⟨R, hR⟩ := fillTemplate_first_lt s.type (escapeHtml s.text) (escapeHtml s.type)
      (escapeHtml s.suggestion)
    obtain ⟨R', hR'⟩ := fillTemplate_last_lt s.type (escapeHtml s.text) (escapeHtml s.type)
      (escapeHtml s.suggestion)
    have hP : (60 : Nat) ∉ js "\n                    " := by decide
    have hT : (60 : Nat) ∉ js "/span>\n                " := by decide
    have hsplit := eq_of_occursAt h
    have hlenX : ((before ++ highlightedError s ++ after).take q).length
        = min q (before ++ highlightedError s ++ after).length := List.length_take _ _
    generalize (before ++ highlightedError s ++ after).take q = X at hsplit hlenX
    generalize (before ++ highlightedError s ++ after).drop
      (q + (highlightedError s).length) = Y at hsplit
    have hlen := congrArg List.length hsplit
    have hW : (highlightedError s).length = (js "\n                    ").length + 1 + R.length := by
      show (fillTemplate _ _ _ _).length = _
      rw [hR]
      simp
      omega
    have h1 : (before ++ js "\n                    ") ++ 60 :: (R ++ after)
        = (X ++ js "\n                    ") ++ 60 :: (R ++ Y) := by
      have := hsplit
      rw [show highlightedError s = js "\n                    " ++ 60 :: R from hR] at this
      simpa [List.append_assoc] using this
    have h2 : (before ++ R') ++ 60 :: (js "/span>\n                " ++ after)
        = (X ++ R') ++ 60 :: (js "/span>\n                " ++ Y) := by
      have := hsplit
      rw [show highlightedError s = R' ++ 60 :: js "/span>\n                " from hR'] at this
      simpa [List.append_assoc] using this
    have hfirst := length_le_of_first 60 _ _ _ _ h1 (by
      intro hc
      rcases List.mem_append.1 hc with hc | hc
      · exact hb hc
      · exact hP hc)
    have hlast := length_le_of_last 60 _ _ _ _ h2 (by
      intro hc
      rcases List.mem_append.1 hc with hc | hc
      · exact hT hc
      · exact ha hc)
    simp only [List.length_append] at hfirst hlast hlen hlenX
    omega
  · rintro rfl
    exact occursAt_of_eq before (highlightedError s) after

/-- C2, counterexample: the text `wrapper ++ "<x"` holds `"<x"` exactly once, since the
wrapper of the span `"<x"` holds it in escaped form only; the result is the wrapper
twice, the copy that stood in the text and the one inserted, so it does not hold
exactly one wrapper. -/
theorem single_wrapper_counterexample :
    (occurrences (highlightedError tagSpan ++ js "<x") tagSpan.text).length = 1 ∧
    createInteractiveText (highlightedError tagSpan ++ js "<x") (some [tagSpan])
      = highlightedError tagSpan ++ highlightedError tagSpan ∧
    occurrences (createInteractiveText (highlightedError tagSpan ++ js "<x") (some [tagSpan]))
      (highlightedError tagSpan) = [0, 352] := by
  set_option maxRecDepth 100000 in decide

/-- C2, amended: for a single span whose text occurs exactly once in `text`, with
`text = before ++ s.text ++ after`, the result is `before ++ wrapper ++ after`: exactly
one replacement is made, at the place of the occurrence; the wrapper is the markup of
lines 264-272 around the escaped matched text, the category and the escaped
suggestion; putting the matched text back in place of the inserted wrapper gives
`text`; and when `text` holds no `<`, the wrapper occurs in the result at that one
place and nowhere else. -/
theorem createInteractiveText_single (text before after : JSString) (s : ErrorSpan)
    (hText : text = before ++ s.text ++ after)
    (hOnce : (occurrences text s.text).length = 1) :
    createInteractiveText text (some [s]) = before ++ highlightedError s ++ after ∧
    replacements text (processingOrder text [s]) = [⟨s, before.length⟩] ∧
    highlightedError s
      = js "\n                    <span class=\"error-highlight\" data-error-type=\""
        ++ s.type
        ++ js "\">\n                        "
        ++ escapeHtml s.text
        ++ js "\n                        <span class=\"grammar-tooltip\">\n                            <strong>"
        ++ escapeHtml s.type
        ++ js "</strong>\n                            <div class=\"tooltip-suggestion\">"
        ++ escapeHtml s.suggestion
        ++ js "</div>\n                        </span>\n                    </span>\n                " ∧
    Replacement.undo ⟨s, before.length⟩ (createInteractiveText text (some [s])) = text ∧
    (60 ∉ text → ∀ q : Nat,
      occursAt (createInteractiveText text (some [s])) (highlightedError s) q = true
        ↔ q = before.length) := by
  subst hText
  have hidx := indexOf_of_occurs_once before s.text after hOnce
  have hbody : loopBody (before ++ s.text ++ after) s = before ++ highlightedError s ++ after := by
    rw [loopBody_of_found hidx]
    simp [List.take_append_of_le_length]
  have hout : createInteractiveText (before ++ s.text ++ after) (some [s])
      = before ++ highlightedError s ++ after := by
    rw [createInteractiveText_eq_foldl _ _ (by simp), processingOrder_singleton]
    exact hbody
  refine ⟨hout, ?_, rfl, ?_, ?_⟩
  · rw [processingOrder_singleton]
    unfold replacements
    rw [hidx, if_pos (by omega)]
    simp [replacements]
  · rw [hout]
    simp [Replacement.undo, List.take_append_of_le_length]
  · intro hno q
    rw [hout]
    exact occursAt_wrapper_iff before after s
      (fun hc => hno (List.mem_append_left _ (List.mem_append_left _ hc)))
      (fun hc => hno (List.mem_append_right _ hc)) q

/-- C2, witness: the scenario of the specification, `"I has apple."` with the one
span `"has"`, and the result written out. -/
theorem createInteractiveText_single_witness :
    (occurrences (js "I has apple.") (js "has")).length = 1 ∧
    createInteractiveText (js "I has apple.")
        (some [⟨js "has", js "Subject-Verb Agreement", js "have"⟩])
      = js "I \n                    <span class=\"error-highlight\" data-error-type=\"Subject-Verb Agreement\">\n                        has\n                        <span class=\"grammar-tooltip\">\n                            <strong>Subject-Verb Agreement</strong>\n                            <div class=\"tooltip-suggestion\">have</div>\n                        </span>\n                    </span>\n                 apple." ∧
    occurrences (createInteractiveText (js "I has apple.")
        (some [⟨js "has", js "Subject-Verb Agreement", js "have"⟩]))
      (highlightedError ⟨js "has", js "Subject-Verb Agreement", js "have"⟩) = [2] :=
  ⟨by decide, ((createInteractiveText_single (js "I has apple.") (js "I ") (js " apple.")
    ⟨js "has", js "Subject-Verb Agreement", js "have"⟩ (by decide) (by decide)).1).trans
      (by set_option maxRecDepth 100000 in decide),
    by set_option maxRecDepth 100000 in decide⟩

/-! ## Claim C3: a span that is absent from the text -/

/-- C3, counterexample: a span whose text does not occur in `text` can change the
result.  Added to the empty list it turns the escaped text into the unescaped one;
added to the list with the span `"has"`, the span `"span"` is found in the markup
that was inserted for `"has"`. -/
theorem absent_span_counterexample :
    (indexOf (js "<") absentSpan.text = -1 ∧
      createInteractiveText (js "<") (some ([] ++ absentSpan :: []))
        ≠ createInteractiveText (js "<") (some ([] ++ []))) ∧
    (indexOf (js "I has apple.") markupSpan.text = -1 ∧
      createInteractiveText (js "I has apple.") (some ([hasSpan] ++ markupSpan :: []))
        ≠ createInteractiveText (js "I has apple.") (some ([hasSpan] ++ []))) := by
  set_option maxRecDepth 100000 in decide

/-- C3, amended: let the text of `s` not occur in `text`, and let the other spans
`l1 ++ l2` be at least one.  When the text of `s` is also not found in the working
text at the pass of `s`, that is, it does not occur in the markup inserted until
then, inserting `s` at any position leaves the result as it is. -/
theorem absent_span_no_contribution (text : JSString) (l1 l2 : List ErrorSpan) (s : ErrorSpan)
    (hne : l1 ++ l2 ≠ [])
    (hAbsent : indexOf text s.text = -1)
    (hNotFound : ∀ p ∈ foundIndices text (processingOrder text (l1 ++ s :: l2)),
      p.1 = s → p.2 = -1) :
    createInteractiveText text (some (l1 ++ s :: l2))
      = createInteractiveText text (some (l1 ++ l2)) := by
  have hleast : ∀ x, sortKey text s ≤ sortKey text x := by
    intro x
    show indexOf text s.text ≤ _
    rw [hAbsent]
    exact indexOf_ge _ _
  obtain ⟨A, B, h1, h2, _⟩ :=
    jsSort_insert_least (compareErrors text) (sortKey text) (compareErrors_le text) s hleast l1 l2
  have hord : processingOrder text (l1 ++ l2) = B.reverse ++ A.reverse := by
    rw [processingOrder_eq_reverse, sortedErrors, h2, List.reverse_append]
  have hord' : processingOrder text (l1 ++ s :: l2) = B.reverse ++ s :: A.reverse := by
    rw [processingOrder_eq_reverse, sortedErrors, h1, List.reverse_append, List.reverse_cons,
      List.append_assoc]
    rfl
  have hw : indexOf (B.reverse.foldl loopBody text) s.text = -1 := by
    refine hNotFound (s, indexOf (B.reverse.foldl loopBody text) s.text) ?_ rfl
    rw [hord', foundIndices_append]
    exact List.mem_append_right _ (List.mem_cons_self _ _)
  rw [createInteractiveText_eq_foldl _ _ hne, createInteractiveText_eq_foldl _ _ (by simp),
    hord, hord', List.foldl_append, List.foldl_append, List.foldl_cons,
    loopBody_of_not_found hw]

/-- C3, witness: `"zzz"` beside the span `"has"` in `"I has apple."`. -/
theorem absent_span_no_contribution_witness :
    indexOf (js "I has apple.") absentSpan.text = -1 ∧
    createInteractiveText (js "I has apple.") (some ([hasSpan] ++ absentSpan :: []))
      = createInteractiveText (js "I has apple.") (some ([hasSpan] ++ [])) :=
  ⟨by decide, absent_span_no_contribution (js "I has apple.") [hasSpan] [] absentSpan
    (by decide) (by decide) (by set_option maxRecDepth 100000 in decide)⟩

/-! ## Claim C4: the text outside the wrappers -/

/-- C4, the code at the failing inputs: with a span in the list, the text outside
the wrapper comes out as it went in, `<` and `>` included, whether the span is found
or not; `escapeHtml` of the same text is different. -/
theorem unescaped_outside_wrappers :
    createInteractiveText (js "a<b") (some [absentSpan]) = js "a<b" ∧
    escapeHtml (js "a<b") = js "a&lt;b" ∧
    createInteractiveText (js "<b> has") (some [hasSpan])
      = js "<b> " ++ highlightedError hasSpan ++ js "" ∧
    createInteractiveText (js "<b> has") (some [hasSpan])
      ≠ escapeHtml (js "<b> ") ++ highlightedError hasSpan ++ escapeHtml (js "") := by
  set_option maxRecDepth 100000 in decide

/-! ## Claim C5: escaping inside the wrapper -/

/-- C5, counterexample: for a span with quotes and `<` in its fields the wrapper is
not the template filled with entity-escaped fields; the category stands unescaped in
the attribute, and the quotes of the matched text are copied. -/
theorem wrapper_escaping_counterexample :
    highlightedError ⟨js "it's", js "\"><b", js "its"⟩
      ≠ wrapperSpec ⟨js "it's", js "\"><b", js "its"⟩ ∧
    highlightedError ⟨js "it's", js "\"><b", js "its"⟩
      = fillTemplate (js "\"><b") (js "it's") (js "\"&gt;&lt;b") (js "its") := by
  set_option maxRecDepth 100000 in decide

/-- C5, amended: the matched text, the category in the tooltip heading and the
suggestion are inserted in `escapeHtml` form; `escapeHtml` works code unit by code
unit, replaces `&`, `<`, `>` and U+00A0 by entities and copies the quote characters,
so that no `<` or `>` is left in what it returns. -/
theorem wrapper_escaping (s : ErrorSpan) :
    (∃ attr, highlightedError s
      = fillTemplate attr (escapeHtml s.text) (escapeHtml s.type) (escapeHtml s.suggestion)) ∧
    (∀ x y : JSString, escapeHtml (x ++ y) = escapeHtml x ++ escapeHtml y) ∧
    escapeHtml [38] = js "&amp;" ∧ escapeHtml [60] = js "&lt;" ∧ escapeHtml [62] = js "&gt;" ∧
    escapeHtml [160] = js "&nbsp;" ∧ escapeHtml [34] = [34] ∧ escapeHtml [39] = [39] ∧
    (∀ c, c ≠ 38 → c ≠ 60 → c ≠ 62 → c ≠ 160 → escapeHtml [c] = [c]) ∧
    (∀ (x : JSString) (c : Nat), c ∈ escapeHtml x → c ≠ 60 ∧ c ≠ 62) := by
  refine ⟨⟨s.type, rfl⟩, ?_, rfl, rfl, rfl, rfl, rfl, rfl, ?_, not_mem_escapeHtml⟩
  · intro x y
    simp [escapeHtml]
  · intro c h1 h2 h3 h4
    simp [escapeHtml, escapeChar, h1, h2, h3, h4]

/-! ## Claim C6: the replacements and their undoing -/

theorem loopBody_eq_apply {result : JSString} {error : ErrorSpan} {p : Nat}
    (h : indexOf result error.text = (p : Int)) :
    loopBody result error = Replacement.apply ⟨error, p⟩ result :=
  loopBody_of_found h

theorem undo_apply (r : Replacement) (w : JSString)
    (hocc : occursAt w r.span.text r.index = true) (hle : r.index ≤ w.length) :
    r.undo (r.apply w) = w := by
  have hsplit := eq_of_occursAt hocc
  have hlen : (w.take r.index).length = r.index := by simp [hle]
  have e1 : (w.take r.index ++ highlightedError r.span
      ++ w.drop (r.index + r.span.text.length)).take r.index = w.take r.index := by
    rw [List.append_assoc]
    exact List.take_left' hlen
  have e2 : (w.take r.index ++ highlightedError r.span
      ++ w.drop (r.index + r.span.text.length)).drop (r.index + (highlightedError r.span).length)
      = w.drop (r.index + r.span.text.length) := by
    apply List.drop_left'
    simp [hlen]
  unfold Replacement.undo Replacement.apply
  rw [e1, e2]
  exact hsplit.symm

theorem replacements_length_le (result : JSString) (order : List ErrorSpan) :
    (replacements result order).length ≤ order.length := by
  induction order generalizing result with
  | nil => simp [replacements]
  | cons e order ih =>
    rw [replacements]
    split
    · simpa using ih _
    · exact le_trans (ih _) (by simp)

theorem mem_of_mem_replacements (result : JSString) (order : List ErrorSpan) (r : Replacement)
    (hr : r ∈ replacements result order) : r.span ∈ order := by
  induction order generalizing result with
  | nil => simp [replacements] at hr
  | cons e order ih =>
    rw [replacements] at hr
    split at hr
    · rcases List.mem_cons.1 hr with rfl | hr
      · exact List.mem_cons_self _ _
      · exact List.mem_cons_of_mem _ (ih _ hr)
    · exact List.mem_cons_of_mem _ (ih _ hr)

theorem replacements_replace_occurrences (result : JSString) (order : List ErrorSpan) :
    replacesOccurrences result (replacements result order) = true := by
  induction order generalizing result with
  | nil => rfl
  | cons e order ih =>
    rw [replacements]
    split
    · rename_i h
      obtain ⟨p, hp, hocc, _, _⟩ := indexOf_found h
      rw [hp, Int.toNat_natCast, replacesOccurrences, Bool.and_eq_true]
      exact ⟨hocc, by rw [← loopBody_eq_apply hp]; exact ih _⟩
    · rename_i h
      rw [loopBody_of_not_found (not_not.1 h)]
      exact ih _

theorem foldl_apply_replacements (result : JSString) (order : List ErrorSpan) :
    (replacements result order).foldl (fun w r => r.apply w) result
      = order.foldl loopBody result := by
  induction order generalizing result with
  | nil => rfl
  | cons e order ih =>
    rw [replacements]
    split
    · rename_i h
      obtain ⟨p, hp, _, _, _⟩ := indexOf_found h
      rw [List.foldl_cons, List.foldl_cons, hp, Int.toNat_natCast, ← loopBody_eq_apply hp]
      exact ih _
    · rename_i h
      rw [List.foldl_cons, loopBody_of_not_found (not_not.1 h)]
      exact ih _

theorem foldl_undo_replacements (result : JSString) (order : List ErrorSpan) :
    (replacements result order).reverse.foldl (fun w r => r.undo w)
        (order.foldl loopBody result) = result := by
  induction order generalizing result with
  | nil => rfl
  | cons e order ih =>
    rw [replacements]
    split
    · rename_i h
      obtain ⟨p, hp, hocc, hlen, _⟩ := indexOf_found h
      rw [List.reverse_cons, List.foldl_append, List.foldl_cons, List.foldl_nil,
        List.foldl_cons, ih, hp, Int.toNat_natCast, loopBody_eq_apply hp]
      exact undo_apply ⟨e, p⟩ result hocc (by show p ≤ _; omega)
    · rename_i h
      rw [List.foldl_cons, ih, loopBody_of_not_found (not_not.1 h)]

/-- C6, counterexample: with the empty list the result for `"<"` is `"&lt;"`, which
no run of at most zero replacements produces from `"<"`. -/
theorem replacement_trace_counterexample :
    ¬ ∃ rs : List Replacement, rs.length ≤ ([] : List ErrorSpan).length ∧
      rs.foldl (fun w r => r.apply w) (js "<") = createInteractiveText (js "<") (some []) := by
  rintro ⟨rs, hlen, h⟩
  have hnil : rs = [] := List.length_eq_zero.1 (Nat.le_zero.1 hlen)
  subst hnil
  revert h
  decide

/-- C6, amended: for a list of at least one span the result is reached from `text`
by the replacements the loop makes: they are at most as many as the spans, each
replaces an occurrence of the text of a span of the list in the working text by the
wrapper of that span, and undoing them, last made first, gives `text` again. -/
theorem replacement_trace (text : JSString) (errors : List ErrorSpan) (hne : errors ≠ []) :
    (replacements text (processingOrder text errors)).length ≤ errors.length ∧
    (∀ r ∈ replacements text (processingOrder text errors), r.span ∈ errors) ∧
    replacesOccurrences text (replacements text (processingOrder text errors)) = true ∧
    (replacements text (processingOrder text errors)).foldl (fun w r => r.apply w) text
      = createInteractiveText text (some errors) ∧
    (replacements text (processingOrder text errors)).reverse.foldl (fun w r => r.undo w)
      (createInteractiveText text (some errors)) = text := by
  have hperm : (processingOrder text errors).Perm errors := by
    rw [processingOrder_eq_reverse]
    exact (List.reverse_perm _).trans (sortedErrors_perm text errors)
  rw [createInteractiveText_eq_foldl text errors hne]
  refine ⟨?_, ?_, replacements_replace_occurrences _ _, foldl_apply_replacements _ _,
    foldl_undo_replacements _ _⟩
  · rw [← hperm.length_eq]
    exact replacements_length_le _ _
  · intro r hr
    exact hperm.mem_iff.1 (mem_of_mem_replacements _ _ r hr)

/-- C6, witness: the two spans `"has"` and `"zzz"` in `"I has apple."`; one
replacement is made. -/
theorem replacement_trace_witness :
    (replacements (js "I has apple.")
        (processingOrder (js "I has apple.") [absentSpan, hasSpan])).reverse.foldl
      (fun w r => r.undo w) (createInteractiveText (js "I has apple.")
        (some [absentSpan, hasSpan])) = js "I has apple." :=
  (replacement_trace (js "I has apple.") [absentSpan, hasSpan] (by decide)).2.2.2.2

/-! ## Claim C7: exceptions -/

theorem mem_jsSort {α : Type} (cmp : α → α → Int) (l : List α) (x : α) :
    x ∈ jsSort cmp l ↔ x ∈ l :=
  (jsSort_perm cmp l).mem_iff

theorem loopBodyJS_of_string (result : JSString) (error : RawSpan) (m : JSString)
    (h : error.text = .string m) : ∃ out, loopBodyJS result error = .ok out := by
  unfold loopBodyJS
  simp only [h, lengthOf]
  split
  · exact ⟨_, rfl⟩
  · exact ⟨_, rfl⟩

theorem loopJS_of_string (sorted : List RawSpan)
    (h : ∀ e ∈ sorted, ∃ m, e.text = .string m) (n : Nat) (result : JSString) :
    ∃ out, loopJS sorted n result = .ok out := by
  induction n generalizing result with
  | zero => exact ⟨result, rfl⟩
  | succ i ih =>
    rw [loopJS]
    cases hget : sorted[i]? with
    | none => exact ih result
    | some error =>
      obtain ⟨m, hm⟩ := h error (List.getElem?_mem hget)
      obtain ⟨out, hout⟩ := loopBodyJS_of_string result error m hm
      simp only [hout]
      exact ih out

theorem loopBodyJS_of_not_found (result : JSString) (error : RawSpan)
    (h : indexOf result (toJSString error.text) = -1) : loopBodyJS result error = .ok result := by
  simp [loopBodyJS, h]

theorem insertSorted_map {α β : Type} (f : α → β) (cmp : α → α → Int) (cmp' : β → β → Int)
    (h : ∀ a b, cmp' (f a) (f b) = cmp a b) (a : α) (l : List α) :
    insertSorted cmp' (f a) (l.map f) = (insertSorted cmp a l).map f := by
  induction l with
  | nil => rfl
  | cons b l ih =>
    simp only [List.map_cons, insertSorted, h]
    split
    · rfl
    · rw [List.map_cons, ih]

theorem jsSort_map {α β : Type} (f : α → β) (cmp : α → α → Int) (cmp' : β → β → Int)
    (h : ∀ a b, cmp' (f a) (f b) = cmp a b) (l : List α) :
    jsSort cmp' (l.map f) = (jsSort cmp l).map f := by
  induction l with
  | nil => rfl
  | cons a l ih => rw [List.map_cons, jsSort, jsSort, ih, insertSorted_map f cmp cmp' h]

theorem loopBodyJS_toRaw (result : JSString) (error : ErrorSpan) :
    loopBodyJS result error.toRaw = .ok (loopBody result error) := by
  unfold loopBodyJS loopBody
  simp only [ErrorSpan.toRaw, toJSString, lengthOf, highlightedErrorJS, highlightedError,
    escapeHtmlValue]
  split <;> rfl

theorem loopJS_toRaw (sorted : List ErrorSpan) (n : Nat) (result : JSString) :
    loopJS (sorted.map ErrorSpan.toRaw) n result = .ok (loop sorted n result) := by
  induction n generalizing result with
  | zero => rfl
  | succ i ih =>
    rw [loopJS, loop, List.getElem?_map]
    cases sorted[i]? with
    | none => exact ih result
    | some error =>
      simp only [Option.map_some', loopBodyJS_toRaw]
      exact ih _

/-- On spans whose three fields are strings the two renderings of the function agree. -/
theorem createInteractiveTextJS_toRaw (text : JSString) (errors : Option (List ErrorSpan)) :
    createInteractiveTextJS text (errors.map (List.map ErrorSpan.toRaw))
      = .ok (createInteractiveText text errors) := by
  cases errors with
  | none => rfl
  | some es =>
    cases es with
    | nil => rfl
    | cons e es =>
      have hs := jsSort_map ErrorSpan.toRaw (compareErrors text) (compareErrorsJS text)
        (fun a b => rfl) (e :: es)
      show loopJS (jsSort (compareErrorsJS text) ((e :: es).map ErrorSpan.toRaw))
        (jsSort (compareErrorsJS text) ((e :: es).map ErrorSpan.toRaw)).length text = _
      rw [hs, List.length_map, loopJS_toRaw]
      rfl

/-- C7, counterexample: a span without a `text` field is searched for as
`"undefined"`; when that is found, reading `errorText.length` throws. -/
theorem missing_text_throws :
    createInteractiveTextJS (js "x is undefined")
      (some [⟨.undefined, .string (js "Spelling"), .string (js "defined")⟩])
      = .error .typeError := by
  rfl

/-- C7, amended: for `errors` null or absent, empty, or a list of spans whose `text`
field is a string (the other two fields may be missing), the function returns a
string; a span whose text is not found in the working text leaves the working text
as it is, without an exception; and on spans whose fields are all strings the string
returned is that of `createInteractiveText`. -/
theorem createInteractiveTextJS_returns (text : JSString) (errors : Option (List RawSpan))
    (hText : ∀ es, errors = some es → ∀ e ∈ es, ∃ m, e.text = .string m) :
    (∃ out, createInteractiveTextJS text errors = .ok out) ∧
    (∀ (result : JSString) (e : RawSpan),
      indexOf result (toJSString e.text) = -1 → loopBodyJS result e = .ok result) ∧
    ∀ typed : Option (List ErrorSpan), errors = typed.map (List.map ErrorSpan.toRaw) →
      createInteractiveTextJS text errors = .ok (createInteractiveText text typed) := by
  refine ⟨?_, loopBodyJS_of_not_found, ?_⟩
  · cases errors with
    | none => exact ⟨_, rfl⟩
    | some es =>
      cases es with
      | nil => exact ⟨_, rfl⟩
      | cons e es =>
        apply loopJS_of_string
        intro x hx
        exact hText _ rfl x ((mem_jsSort _ _ x).1 hx)
  · rintro typed rfl
    exact createInteractiveTextJS_toRaw text typed

/-- C7, witness: the empty text and one span with an empty `text` field and the other
fields missing. -/
theorem createInteractiveTextJS_returns_witness :
    ∃ out, createInteractiveTextJS [] (some [⟨.string [], .undefined, .null⟩]) = .ok out :=
  (createInteractiveTextJS_returns [] (some [⟨.string [], .undefined, .null⟩])
    (by
      intro es hes e he
      cases hes
      rw [List.mem_singleton] at he
      subst he
      exact ⟨[], rfl⟩)).1

/-! ## Claim C8: the processing order -/

theorem jsSort_eq_insertionSort {α : Type} (cmp : α → α → Int) (key : α → Int)
    (hcmp : ∀ a b, cmp a b ≤ 0 ↔ key a ≤ key b) (l : List α) :
    jsSort cmp l = l.insertionSort (fun a b => key a ≤ key b) := by
  have hins : ∀ (a : α) (l : List α),
      insertSorted cmp a l = l.orderedInsert (fun a b => key a ≤ key b) a := by
    intro a l
    induction l with
    | nil => rfl
    | cons b l ih =>
      by_cases h : key a ≤ key b
      · simp [insertSorted, List.orderedInsert, h, (hcmp a b).2 h]
      · have h2 : ¬ cmp a b ≤ 0 := fun hc => h ((hcmp a b).1 hc)
        simp [insertSorted, List.orderedInsert, h, h2, ih]
  induction l with
  | nil => rfl
  | cons a l ih => rw [jsSort, List.insertionSort, hins, ih]

/-- A list that descends in a key with least value `-1` has the elements with key
`-1` at its end. -/
theorem descending_split {α : Type} (key : α → Int) (hge : ∀ x, -1 ≤ key x) (l : List α)
    (h : l.Pairwise (fun a b => key b ≤ key a)) :
    l = l.filter (fun e => decide (key e ≠ -1)) ++ l.filter (fun e => decide (key e = -1)) := by
  induction l with
  | nil => rfl
  | cons a l ih =>
    have ha := List.pairwise_cons.1 h
    by_cases hk : key a = -1
    · have hall : ∀ x ∈ l, key x = -1 := fun x hx =>
        le_antisymm (hk ▸ ha.1 x hx) (hge x)
      have h1 : l.filter (fun e => decide (key e ≠ -1)) = [] := by
        rw [List.filter_eq_nil_iff]
        intro x hx
        simp [hall x hx]
      have h2 : l.filter (fun e => decide (key e = -1)) = l := by
        rw [List.filter_eq_self]
        intro x hx
        simp [hall x hx]
      rw [List.filter_cons, List.filter_cons, h1, h2]
      simp [hk]
    · have := ih ha.2
      simp only [List.filter_cons, hk, ne_eq, not_false_eq_true, decide_True, decide_False,
        if_true, List.cons_append]
      simp only [Bool.false_eq_true, if_false]
      exact congrArg _ this

/-- C8: for a non-empty list the loop runs over the reverse of the stable ascending
sort of `errors` by the key `text.indexOf(error.text)`: the order is a permutation of
`errors`, the keys do not increase along it, spans with the same key come in the
reverse of their input order, and the spans that do not occur in `text` come last. -/
theorem processingOrder_spec (text : JSString) (errors : List ErrorSpan) (hne : errors ≠ []) :
    createInteractiveText text (some errors)
      = (processingOrder text errors).foldl loopBody text ∧
    processingOrder text errors
      = (errors.insertionSort (fun a b => sortKey text a ≤ sortKey text b)).reverse ∧
    (processingOrder text errors).Perm errors ∧
    (processingOrder text errors).Pairwise (fun a b => sortKey text b ≤ sortKey text a) ∧
    (∀ k : Int, (processingOrder text errors).filter (fun e => decide (sortKey text e = k))
      = (errors.filter (fun e => decide (sortKey text e = k))).reverse) ∧
    processingOrder text errors
      = (processingOrder text errors).filter (fun e => decide (sortKey text e ≠ -1))
        ++ (processingOrder text errors).filter (fun e => decide (sortKey text e = -1)) := by
  have hdesc : (processingOrder text errors).Pairwise
      (fun a b => sortKey text b ≤ sortKey text a) := by
    rw [processingOrder_eq_reverse, List.pairwise_reverse]
    exact sortedErrors_pairwise text errors
  refine ⟨createInteractiveText_eq_foldl text errors hne, ?_, ?_, hdesc, ?_, ?_⟩
  · rw [processingOrder_eq_reverse, sortedErrors,
      jsSort_eq_insertionSort _ (sortKey text) (compareErrors_le text)]
  · rw [processingOrder_eq_reverse]
    exact (List.reverse_perm _).trans (sortedErrors_perm text errors)
  · intro k
    rw [processingOrder_eq_reverse, List.filter_reverse, sortedErrors,
      jsSort_filter _ (sortKey text) (compareErrors_le text)]
  · exact descending_split (sortKey text) (fun x => indexOf_ge _ _) _ hdesc

/-- C8, witness: `"zzz"`, `"apple"` and `"has"` in `"I has apple."` are processed in the
order `"apple"`, `"has"`, `"zzz"`. -/
theorem processingOrder_spec_witness :
    processingOrder (js "I has apple.") [absentSpan, appleSpan, hasSpan]
      = [appleSpan, hasSpan, absentSpan] ∧
    (processingOrder (js "I has apple.") [absentSpan, appleSpan, hasSpan]).Perm
      [absentSpan, appleSpan, hasSpan] :=
  ⟨by decide, (processingOrder_spec (js "I has apple.")
    [absentSpan, appleSpan, hasSpan] (by decide)).2.2.1⟩

/-! ## Claims C9 and C10: spans whose first occurrences do not overlap -/

theorem startsWith_iff_take (hay needle : JSString) :
    startsWith hay needle = true ↔ hay.take needle.length = needle := by
  rw [startsWith_iff_exists]
  constructor
  · rintro ⟨a, rfl⟩
    exact List.take_left _ _
  · intro h
    refine ⟨hay.drop needle.length, ?_⟩
    calc hay = hay.take needle.length ++ hay.drop needle.length :=
          (List.take_append_drop _ _).symm
      _ = needle ++ hay.drop needle.length := by rw [h]

/-- Whether the needle occurs at `i` depends only on the code units before
`i + needle.length`. -/
theorem occursAt_take_append (text rest needle : JSString) (i lo : Nat)
    (h : i + needle.length ≤ lo) (hlo : lo ≤ text.length) :
    occursAt (text.take lo ++ rest) needle i = occursAt text needle i := by
  have hlen : (text.take lo).length = lo := by simp [hlo]
  have e1 : ((text.take lo ++ rest).drop i).take needle.length
      = (text.drop i).take needle.length := by
    rw [List.drop_append_of_le_length (by omega),
      List.take_append_of_le_length (by simp; omega), List.drop_take, List.take_take]
    congr 1
    omega
  rw [Bool.eq_iff_iff]
  unfold occursAt
  rw [startsWith_iff_take, startsWith_iff_take, e1]

/-- The run over spans that are found in `text` one after the other without overlap,
processed from the last to the first: every span is found where it first occurs in
`text`, and the result is the splice of the wrappers into `text`. -/
theorem foldl_reverse_ascending (text : JSString) (A : List ErrorSpan)
    (hFound : ∀ e ∈ A, sortKey text e ≠ -1)
    (hAsc : A.Pairwise (fun a b => sortKey text a + a.text.length ≤ sortKey text b))
    (lo : Nat) (hlo : ∀ e ∈ A, (lo : Int) ≤ sortKey text e) (hlen : lo ≤ text.length) :
    A.reverse.foldl loopBody text = text.take lo ++ spliceWith highlightedError text lo A ∧
    foundIndices text A.reverse = A.reverse.map (fun e => (e, sortKey text e)) := by
  induction A generalizing lo with
  | nil => simp [spliceWith, foundIndices]
  | cons a A ih =>
    obtain ⟨p, hp, hocc, hfit, hmin⟩ := indexOf_found (hFound a (List.mem_cons_self _ _))
    have hkey : sortKey text a = (p : Int) := hp
    have hasc := List.pairwise_cons.1 hAsc
    have hlop : lo ≤ p := by
      have := hlo a (List.mem_cons_self _ _)
      rw [hkey] at this
      omega
    obtain ⟨ih1, ih2⟩ := ih (fun e he => hFound e (List.mem_cons_of_mem _ he)) hasc.2
      (p + a.text.length)
      (fun e he => by
        have := hasc.1 e he
        rw [hkey] at this
        push_cast
        exact this)
      hfit
    have htake : (text.take (p + a.text.length)).length = p + a.text.length := by simp [hfit]
    have hidx : indexOf (A.reverse.foldl loopBody text) a.text = (p : Int) := by
      rw [ih1, indexOf_eq_iff]
      constructor
      · rw [occursAt_take_append text _ a.text p _ (le_refl _) hfit]
        exact hocc
      · intro i hi
        rw [occursAt_take_append text _ a.text i _ (by omega) hfit]
        exact hmin i hi
    have hbody : loopBody (A.reverse.foldl loopBody text) a
        = text.take p ++ highlightedError a
          ++ spliceWith highlightedError text (p + a.text.length) A := by
      rw [loopBody_of_found hidx, ih1, List.drop_left' htake,
        List.take_append_of_le_length (by omega), List.take_take]
      congr 2
      congr 1
      omega
    constructor
    · rw [List.reverse_cons, List.foldl_append, List.foldl_cons, List.foldl_nil, hbody,
        spliceWith, hkey, Int.toNat_natCast]
      have hsplit : text.take p = text.take lo ++ (text.take p).drop lo := by
        have h1 : (text.take p).take lo = text.take lo := by
          rw [List.take_take]
          congr 1
          omega
        rw [← h1, List.take_append_drop]
      rw [List.append_assoc, List.append_assoc]
      rw [← List.append_assoc (text.take lo), ← hsplit]
    · rw [List.reverse_cons, foundIndices_append, ih2, List.map_append]
      show _ ++ [(a, indexOf (A.reverse.foldl loopBody text) a.text)] = _
      rw [hidx, ← hkey]
      rfl

/-- Putting the text of each span where the span is gives the text back. -/
theorem spliceWith_text (text : JSString) (A : List ErrorSpan)
    (hFound : ∀ e ∈ A, sortKey text e ≠ -1)
    (hAsc : A.Pairwise (fun a b => sortKey text a + a.text.length ≤ sortKey text b))
    (lo : Nat) (hlo : ∀ e ∈ A, (lo : Int) ≤ sortKey text e) :
    spliceWith (fun e => e.text) text lo A = text.drop lo := by
  induction A generalizing lo with
  | nil => rfl
  | cons a A ih =>
    obtain ⟨p, hp, hocc, hfit, _⟩ := indexOf_found (hFound a (List.mem_cons_self _ _))
    have hkey : sortKey text a = (p : Int) := hp
    have hasc := List.pairwise_cons.1 hAsc
    have hlop : lo ≤ p := by
      have := hlo a (List.mem_cons_self _ _)
      rw [hkey] at this
      omega
    rw [spliceWith, hkey, Int.toNat_natCast,
      ih (fun e he => hFound e (List.mem_cons_of_mem _ he)) hasc.2 (p + a.text.length)
        (fun e he => by
          have := hasc.1 e he
          rw [hkey] at this
          push_cast
          exact this)]
    have hsplit := congrArg (List.drop lo) (eq_of_occursAt hocc)
    rw [List.append_assoc, List.drop_append_of_le_length (by simp; omega)] at hsplit
    rw [hsplit, List.append_assoc]

/-- Sorting spans that are found, non-empty and pairwise disjoint puts them one
after the other. -/
theorem sortedErrors_ascending (text : JSString) (errors : List ErrorSpan)
    (hOcc : ∀ e ∈ errors, e.text ≠ [] ∧ sortKey text e ≠ -1)
    (hDisj : errors.Pairwise (DisjointIn text)) :
    (sortedErrors text errors).Pairwise
      (fun a b => sortKey text a + a.text.length ≤ sortKey text b) := by
  have hsymm : Symmetric (DisjointIn text) := fun a b h => Or.symm h
  have hd : (sortedErrors text errors).Pairwise (DisjointIn text) :=
    (List.Perm.pairwise_iff (fun h => hsymm h) (sortedErrors_perm text errors)).2 hDisj
  refine ((sortedErrors_pairwise text errors).and hd).imp_of_mem ?_
  rintro a b _ hb ⟨hle, hdis | hdis⟩
  · exact hdis
  · exfalso
    have hbne := (hOcc b ((sortedErrors_perm text errors).mem_iff.1 hb)).1
    have : 0 < b.text.length := List.length_pos.2 hbne
    omega

theorem sortedErrors_congr (text : JSString) (errors errors' : List ErrorSpan)
    (hOcc : ∀ e ∈ errors, e.text ≠ [] ∧ sortKey text e ≠ -1)
    (hDisj : errors.Pairwise (DisjointIn text)) (hPerm : errors'.Perm errors) :
    sortedErrors text errors' = sortedErrors text errors := by
  have hsymm : Symmetric (DisjointIn text) := fun a b h => Or.symm h
  have hOcc' : ∀ e ∈ errors', e.text ≠ [] ∧ sortKey text e ≠ -1 :=
    fun e he => hOcc e (hPerm.mem_iff.1 he)
  have hDisj' : errors'.Pairwise (DisjointIn text) :=
    (List.Perm.pairwise_iff (fun h => hsymm h) hPerm).2 hDisj
  have strict : ∀ (l : List ErrorSpan), (∀ e ∈ l, e.text ≠ [] ∧ sortKey text e ≠ -1) →
      l.Pairwise (DisjointIn text) →
      (sortedErrors text l).Pairwise (fun a b => sortKey text a < sortKey text b) := by
    intro l hl hd
    refine (sortedErrors_ascending text l hl hd).imp_of_mem ?_
    intro a b ha _ h
    have hane := (hl a ((sortedErrors_perm text l).mem_iff.1 ha)).1
    have : 0 < a.text.length := List.length_pos.2 hane
    omega
  haveI : IsAntisymm ErrorSpan (fun a b => sortKey text a < sortKey text b) :=
    ⟨fun a b h1 h2 => absurd (lt_trans h1 h2) (lt_irrefl _)⟩
  exact List.eq_of_perm_of_sorted
    (((sortedErrors_perm text errors').trans hPerm).trans (sortedErrors_perm text errors).symm)
    (strict errors' hOcc' hDisj') (strict errors hOcc hDisj)

/-- C9, counterexample: of two identical spans `"has"` the one processed second is
found at index 119 of the working text, inside the wrapper of the first, while
`"has"` first occurs at index 2 of `"I has apple."`. -/
theorem found_index_counterexample :
    foundIndices (js "I has apple.") (processingOrder (js "I has apple.") [hasSpan, hasSpan])
      = [(hasSpan, 2), (hasSpan, 119)] ∧
    ¬ ∀ p ∈ foundIndices (js "I has apple.")
        (processingOrder (js "I has apple.") [hasSpan, hasSpan]),
      p.2 ≠ -1 → p.2 = indexOf (js "I has apple.") p.1.text := by
  set_option maxRecDepth 100000 in decide

/-- C9, amended: when the text of every span is non-empty and occurs in `text` and
the first-occurrence intervals are pairwise disjoint, every span is found, and the
index at which it is found in the working text is the index of its first occurrence
in `text`. -/
theorem found_index_of_disjoint (text : JSString) (errors : List ErrorSpan)
    (hOcc : ∀ e ∈ errors, e.text ≠ [] ∧ sortKey text e ≠ -1)
    (hDisj : errors.Pairwise (DisjointIn text)) :
    ∀ p ∈ foundIndices text (processingOrder text errors),
      p.2 ≠ -1 ∧ p.2 = indexOf text p.1.text := by
  have hFound : ∀ e ∈ sortedErrors text errors, sortKey text e ≠ -1 :=
    fun e he => (hOcc e ((sortedErrors_perm text errors).mem_iff.1 he)).2
  have hrun := (foldl_reverse_ascending text (sortedErrors text errors) hFound
    (sortedErrors_ascending text errors hOcc hDisj) 0
    (fun e he => by
      have h1 := hFound e he
      have h2 := indexOf_ge text e.text
      unfold sortKey at h1 ⊢
      omega)
    (Nat.zero_le _)).2
  intro p hp
  rw [processingOrder_eq_reverse, hrun] at hp
  obtain ⟨e, he, rfl⟩ := List.mem_map.1 hp
  exact ⟨hFound e (List.mem_reverse.1 he), rfl⟩

/-- C9, witness: `"has"` and `"apple"` in `"I has apple."` are found at 6 and 2. -/
theorem found_index_of_disjoint_witness :
    foundIndices (js "I has apple.") (processingOrder (js "I has apple.") [hasSpan, appleSpan])
      = [(appleSpan, 6), (hasSpan, 2)] ∧
    ((6 : Int) ≠ -1 ∧ (6 : Int) = indexOf (js "I has apple.") appleSpan.text) :=
  ⟨by decide, found_index_of_disjoint (js "I has apple.") [hasSpan, appleSpan] (by decide)
    (by decide) (appleSpan, 6) (by decide)⟩

/-- C10, counterexample: the empty list meets the conditions, yet the result for
`"<"` is `"&lt;"` and not the text with nothing replaced. -/
theorem simultaneous_replacement_counterexample :
    (∀ e ∈ ([] : List ErrorSpan), e.text ≠ [] ∧ sortKey (js "<") e ≠ -1) ∧
    ([] : List ErrorSpan).Pairwise (DisjointIn (js "<")) ∧
    spliceWith highlightedError (js "<") 0 (sortedErrors (js "<") []) = js "<" ∧
    createInteractiveText (js "<") (some [])
      ≠ spliceWith highlightedError (js "<") 0 (sortedErrors (js "<") []) := by
  decide

/-- C10, amended: for a list of at least one span, when the text of every span is
non-empty and occurs in `text` and the first-occurrence intervals are pairwise
disjoint, the result is `text` with each of these intervals replaced by the wrapper
of its span and everything else copied: the sorted spans lie one after the other,
the splice of their wrappers is the result, the splice of their own texts is `text`,
and every reordering of `errors` gives the same result. -/
theorem simultaneous_replacement (text : JSString) (errors errors' : List ErrorSpan)
    (hne : errors ≠ [])
    (hOcc : ∀ e ∈ errors, e.text ≠ [] ∧ sortKey text e ≠ -1)
    (hDisj : errors.Pairwise (DisjointIn text))
    (hPerm : errors'.Perm errors) :
    createInteractiveText text (some errors)
      = spliceWith highlightedError text 0 (sortedErrors text errors) ∧
    spliceWith (fun e => e.text) text 0 (sortedErrors text errors) = text ∧
    (sortedErrors text errors).Pairwise
      (fun a b => sortKey text a + a.text.length ≤ sortKey text b) ∧
    (sortedErrors text errors).Perm errors ∧
    createInteractiveText text (some errors') = createInteractiveText text (some errors) := by
  have hFound : ∀ e ∈ sortedErrors text errors, sortKey text e ≠ -1 :=
    fun e he => (hOcc e ((sortedErrors_perm text errors).mem_iff.1 he)).2
  have hAsc := sortedErrors_ascending text errors hOcc hDisj
  have hlo : ∀ e ∈ sortedErrors text errors, ((0 : Nat) : Int) ≤ sortKey text e := by
    intro e he
    have h1 := hFound e he
    have h2 := indexOf_ge text e.text
    unfold sortKey at h1 ⊢
    omega
  have hrun := (foldl_reverse_ascending text (sortedErrors text errors) hFound hAsc 0 hlo
    (Nat.zero_le _)).1
  have hout : createInteractiveText text (some errors)
      = spliceWith highlightedError text 0 (sortedErrors text errors) := by
    rw [createInteractiveText_eq_foldl text errors hne, processingOrder_eq_reverse, hrun]
    rfl
  have hne' : errors' ≠ [] := by
    intro h
    rw [h] at hPerm
    exact hne hPerm.symm.eq_nil
  refine ⟨hout, ?_, hAsc, sortedErrors_perm text errors, ?_⟩
  · rw [spliceWith_text text _ hFound hAsc 0 hlo]
    rfl
  · rw [createInteractiveText_eq_foldl text errors' hne',
      createInteractiveText_eq_foldl text errors hne, processingOrder_eq_reverse,
      processingOrder_eq_reverse, sortedErrors_congr text errors errors' hOcc hDisj hPerm]

/-- C10, witness: `"has"` and `"apple"` in `"I has apple."`, given in either order. -/
theorem simultaneous_replacement_witness :
    createInteractiveText (js "I has apple.") (some [appleSpan, hasSpan])
      = createInteractiveText (js "I has apple.") (some [hasSpan, appleSpan]) ∧
    createInteractiveText (js "I has apple.") (some [hasSpan, appleSpan])
      = js "I " ++ highlightedError hasSpan ++ js " " ++ highlightedError appleSpan ++ js "." :=
  ⟨(simultaneous_replacement (js "I has apple.") [hasSpan, appleSpan] [appleSpan, hasSpan]
      (by decide) (by decide) (by decide) (List.Perm.swap _ _ _)).2.2.2.2,
    by set_option maxRecDepth 100000 in decide⟩

end GrammarFuzzy
